import Mathlib

/-!
Shallow embedding of the chromazone line highlighter.

The embedding follows the repository sources:
  - src/main.rs: the data model (MatchStyle, MatchStyles, Region, Regions,
    Parser, Opts), the region scanner (Regions::next), the style
    descriptor parser (TryFrom<Description> for Style) and the option
    parser (Opts::parse);
  - src/config.rs: the configuration loader (find_style,
    read_style_from_config);
  - src/styles.rs: the built-in diff preset.

Text is modelled as a list of characters and slice offsets as indices.
Compiled regular expressions (the regex crate, an external collaborator)
are modelled by their observable leftmost-find behavior: a function from a
text to the optional span of the first match.  Environment variables and
the file system used by read_style_from_config are modelled by the
optional content of the configuration file.
-/

namespace Chromazone

/-- Character list denoted by a string literal. -/
def str (s : String) : List Char := s.data

/-- Double-quote character, used by the configuration line grammar. -/
def quoteChar : Char := Char.ofNat 34

/-- Terminal colors reachable from the style description language of
main.rs (the owo_colors color constructors that the descriptor parser
invokes). -/
inductive Color where
  | black
  | blue
  | cyan
  | green
  | magenta
  | purple
  | red
  | white
  | yellow
deriving DecidableEq, Repr

/-- Text style as built by the descriptor parser: optional foreground and
background colors plus effect flags, the fields of owo_colors Style that
main.rs can set. -/
structure Style where
  fg : Option Color := none
  bg : Option Color := none
  bold : Bool := false
  italic : Bool := false
  strikethrough : Bool := false
  underline : Bool := false
deriving DecidableEq, Repr

/-- Style::new() of owo_colors: the empty style. -/
def Style.new : Style := {}

/-- A compiled regular expression, abstracted as its leftmost-find
behavior: Regex::find returns the start and end offsets of the first
match in the text, or none. -/
def Pattern : Type := List Char → Option (Nat × Nat)

/-- Regex::find. -/
def Pattern.find (p : Pattern) (text : List Char) : Option (Nat × Nat) := p text

/-- MatchStyle of main.rs: a pattern paired with the style for its
matches. -/
structure MatchStyle where
  pattern : Pattern
  style : Style

/-- Candidate considered by MatchStyles::find_match: a match span
together with the style of the pattern that produced it. -/
abbrev Cand : Type := (Nat × Nat) × Style

/-- Left fold performed by Iterator::min_by when comparing match start
offsets: the accumulator is replaced only by a strictly smaller key, so
the first of several equal minima wins (the documented behavior of
Rust's min_by). -/
def minFirst (x : Cand) (xs : List Cand) : Cand :=
  xs.foldl (fun acc y => if y.1.1 < acc.1.1 then y else acc) x

/-- MatchStyles::find_match of main.rs: filter_map every style's
pattern.find over the text and take min_by the match start offset. -/
def MatchStyles.find_match (styles : List MatchStyle) (text : List Char) : Option Cand :=
  match styles.filterMap (fun ms => (ms.pattern.find text).map (fun m => (m, ms.style))) with
  | [] => none
  | x :: xs => some (minFirst x xs)

/-- Region of main.rs: a slice of the line, either unmatched (printed
verbatim) or matched (printed with a style). -/
inductive Region where
  | Unmatched (text : List Char)
  | Matched (text : List Char) (style : Style)

/-- The text carried by a region. -/
def Region.text : Region → List Char
  | .Unmatched t => t
  | .Matched t _ => t

/-- Regions of main.rs: the scanner state, namely the remaining text, the
available match styles, and the buffered previous match. -/
structure Regions where
  text : List Char
  styles : List MatchStyle
  previous : Option (List Char × Style)

/-- Regions::next of main.rs (lines 99-134).  Rust mutates the iterator
and returns Option<Region>; here the successor state is returned
alongside the emitted region. -/
def Regions.next (r : Regions) : Option (Region × Regions) :=
  match r.previous with
  | some (text, style) => some (.Matched text style, { r with previous := none })
  | none =>
    if r.text = [] then
      none
    else
      match MatchStyles.find_match r.styles r.text with
      | none =>
        some (.Unmatched r.text, { r with text := r.text.drop r.text.length })
      | some ((s, e), style) =>
        if 0 < s then
          some (.Unmatched (r.text.take s),
            { r with
                text := r.text.drop e
                previous := some ((r.text.drop s).take (e - s), style) })
        else
          some (.Matched (r.text.take e) style, { r with text := r.text.drop e })

/-- Drive the iterator for at most fuel steps, collecting the emitted
regions and returning the final state. -/
def Regions.run : Nat → Regions → List Region × Regions
  | 0, r => ([], r)
  | fuel + 1, r =>
    match r.next with
    | none => ([], r)
    | some (reg, r2) =>
      let rest := Regions.run fuel r2
      (reg :: rest.1, rest.2)

/-- Parser of main.rs: holds the match styles. -/
structure Parser where
  styles : List MatchStyle

/-- Parser::regions of main.rs: a fresh scanner over the text, with no
buffered match. -/
def Parser.regions (p : Parser) (text : List Char) : Regions :=
  { text := text, styles := p.styles, previous := none }

/-- Concatenation of the texts of a region list, in emission order. -/
def concatTexts : List Region → List Char
  | [] => []
  | reg :: rest => reg.text ++ concatTexts rest

/-- Text the scanner still owes: the buffered match (emitted first)
followed by the remaining unscanned text. -/
def pendingText (r : Regions) : List Char :=
  (match r.previous with
   | none => []
   | some (t, _) => t) ++ r.text

/-- Well-formedness guaranteed by the regex collaborator: a reported
match is a span inside the searched text. -/
def Pattern.WF (p : Pattern) : Prop :=
  ∀ t s e, p.find t = some (s, e) → s ≤ e ∧ e ≤ t.length

/-- Every pattern of the set is well formed. -/
def StylesWF (styles : List MatchStyle) : Prop :=
  ∀ ms ∈ styles, ms.pattern.WF

/-- Leftmost occurrence of the literal p inside t (the behavior of
Regex::find for a pattern without metacharacters). -/
def findSub (p : List Char) : List Char → Option Nat
  | [] => if p.isPrefixOf ([] : List Char) then some 0 else none
  | c :: t => if p.isPrefixOf (c :: t) then some 0 else (findSub p t).map (· + 1)

/-- Literal pattern: the regex denoted by a string of ordinary
characters. -/
def litPat (p : List Char) : Pattern :=
  fun t => (findSub p t).map (fun i => (i, i + p.length))

/-- The regex c* : its leftmost match starts at offset 0 and spans the
maximal (possibly empty) run of c. -/
def starPat (c : Char) : Pattern :=
  fun text => some (0, (text.takeWhile (fun a => a == c)).length)

/-- Style used by the fixtures below. -/
def greenStyle : Style := { fg := some .green }

/-- Style used by the fixtures below. -/
def redStyle : Style := { fg := some .red }

/-- Style used by the zero-width fixture. -/
def zeroStyle : Style := { fg := some .yellow }

/-- The pattern set of the do_not_lose_text test of main.rs: foo first,
bar second. -/
def fooBarStyles : List MatchStyle :=
  [ { pattern := litPat (str "foo"), style := greenStyle },
    { pattern := litPat (str "bar"), style := redStyle } ]

/-- Scanner over the line b with the single zero-width-capable pattern
x* . -/
def zeroWidthScanner : Regions :=
  { text := str "b",
    styles := [ { pattern := starPat 'x', style := zeroStyle } ],
    previous := none }

/-- C7: for every pattern set, scanning the empty line yields no region
at all: the very first step of the iterator returns none, so in
particular no empty Unmatched region is emitted. -/
theorem c7_empty_line (sts : List MatchStyle) :
    (Parser.regions { styles := sts } []).next = none := rfl

/-- C2: the scanner does not guarantee forward progress on zero-width
matches.  With the single pattern x* over the line b, the earliest match
is the empty span at offset 0; each step emits Matched of the empty text
and returns to exactly the same state, so for every fuel the run
produces only empty matched regions and never leaves the initial state:
the region sequence is infinite, contradicting the claimed termination. -/
theorem c2_zero_width_loops (fuel : Nat) :
    (Regions.run fuel zeroWidthScanner).1
        = List.replicate fuel (Region.Matched [] zeroStyle)
    ∧ (Regions.run fuel zeroWidthScanner).2 = zeroWidthScanner := by
  have hstep : zeroWidthScanner.next
      = some (Region.Matched [] zeroStyle, zeroWidthScanner) := rfl
  induction fuel with
  | zero => exact ⟨rfl, rfl⟩
  | succ n ih =>
    refine ⟨?_, ?_⟩
    · simp only [Regions.run, hstep, ih.1, List.replicate]
    · simp only [Regions.run, hstep, ih.2]

/-- The min_by fold yields an element of the candidate list. -/
theorem minFirst_mem (x : Cand) (xs : List Cand) : minFirst x xs ∈ x :: xs := by
  induction xs generalizing x with
  | nil => exact List.mem_singleton.mpr rfl
  | cons y ys ih =>
    have hred : minFirst x (y :: ys) = minFirst (if y.1.1 < x.1.1 then y else x) ys := rfl
    by_cases hc : y.1.1 < x.1.1
    · rw [hred, if_pos hc]
      rcases List.mem_cons.mp (ih y) with h | h
      · rw [h]; exact List.mem_cons_of_mem x (List.mem_cons_self y ys)
      · exact List.mem_cons_of_mem x (List.mem_cons_of_mem y h)
    · rw [hred, if_neg hc]
      rcases List.mem_cons.mp (ih x) with h | h
      · rw [h]; exact List.mem_cons_self x (y :: ys)
      · exact List.mem_cons_of_mem x (List.mem_cons_of_mem y h)

/-- The min_by fold yields a minimal start offset. -/
theorem minFirst_le (x : Cand) (xs : List Cand) :
    ∀ y ∈ x :: xs, (minFirst x xs).1.1 ≤ y.1.1 := by
  induction xs generalizing x with
  | nil =>
    intro y hy
    rw [List.mem_singleton.mp hy]
    exact Nat.le_refl _
  | cons y ys ih =>
    intro z hz
    have hred : minFirst x (y :: ys) = minFirst (if y.1.1 < x.1.1 then y else x) ys := rfl
    by_cases hc : y.1.1 < x.1.1
    · rw [hred, if_pos hc]
      have hself : (minFirst y ys).1.1 ≤ y.1.1 := ih y y (List.mem_cons_self y ys)
      rcases List.mem_cons.mp hz with h | h
      · rw [h]; exact Nat.le_trans hself (Nat.le_of_lt hc)
      · rcases List.mem_cons.mp h with h2 | h2
        · rw [h2]; exact hself
        · exact ih y z (List.mem_cons_of_mem y h2)
    · rw [hred, if_neg hc]
      have hself : (minFirst x ys).1.1 ≤ x.1.1 := ih x x (List.mem_cons_self x ys)
      rcases List.mem_cons.mp hz with h | h
      · rw [h]; exact hself
      · rcases List.mem_cons.mp h with h2 | h2
        · rw [h2]; exact Nat.le_trans hself (Nat.le_of_not_lt hc)
        · exact ih x z (List.mem_cons_of_mem x h2)

/-- A successful find_match returns the find result and style of one of
the listed match styles. -/
theorem find_match_mem_styles (styles : List MatchStyle) (t : List Char)
    (m : Nat × Nat) (st : Style)
    (h : MatchStyles.find_match styles t = some (m, st)) :
    ∃ ms ∈ styles, ms.pattern.find t = some m ∧ st = ms.style := by
  unfold MatchStyles.find_match at h
  cases hc : styles.filterMap (fun ms => (ms.pattern.find t).map (fun m2 => (m2, ms.style))) with
  | nil =>
    rw [hc] at h
    exact absurd h (by simp)
  | cons x xs =>
    rw [hc] at h
    have hval : minFirst x xs = (m, st) := Option.some.inj h
    have hmem : (m, st) ∈ styles.filterMap
        (fun ms => (ms.pattern.find t).map (fun m2 => (m2, ms.style))) := by
      rw [hc, ← hval]
      exact minFirst_mem x xs
    obtain ⟨ms, hms, hf⟩ := List.mem_filterMap.mp hmem
    obtain ⟨m2, hfind, heq⟩ := Option.map_eq_some'.mp hf
    have hm : m2 = m := congrArg Prod.fst heq
    have hst : ms.style = st := congrArg Prod.snd heq
    exact ⟨ms, hms, hm ▸ hfind, hst.symm⟩

/-- Each emitting step of the scanner hands over exactly the front of the
pending text: the emitted region's text followed by the successor state's
pending text reassembles the previous pending text, and the pattern set
is never changed. -/
theorem next_pending (r : Regions) (hwf : StylesWF r.styles) (reg : Region) (r2 : Regions)
    (h : r.next = some (reg, r2)) :
    reg.text ++ pendingText r2 = pendingText r ∧ r2.styles = r.styles := by
  unfold Regions.next at h
  cases hp : r.previous with
  | some pair =>
    obtain ⟨t0, st0⟩ := pair
    rw [hp] at h
    dsimp only at h
    injection h with hpair
    injection hpair with hreg hr2
    subst hreg
    subst hr2
    exact ⟨by simp [pendingText, hp, Region.text], rfl⟩
  | none =>
    rw [hp] at h
    dsimp only at h
    by_cases ht : r.text = []
    · rw [if_pos ht] at h
      exact absurd h (by simp)
    · rw [if_neg ht] at h
      cases hm : MatchStyles.find_match r.styles r.text with
      | none =>
        rw [hm] at h
        dsimp only at h
        injection h with hpair
        injection hpair with hreg hr2
        subst hreg
        subst hr2
        exact ⟨by simp [pendingText, hp, Region.text, List.drop_length], rfl⟩
      | some cand =>
        obtain ⟨⟨s, e⟩, style⟩ := cand
        obtain ⟨ms, hms, hfind, hstyle⟩ := find_match_mem_styles r.styles r.text (s, e) style hm
        have hse : s ≤ e := (hwf ms hms r.text s e hfind).1
        rw [hm] at h
        dsimp only at h
        by_cases hs : 0 < s
        · rw [if_pos hs] at h
          injection h with hpair
          injection hpair with hreg hr2
          subst hreg
          subst hr2
          refine ⟨?_, rfl⟩
          show r.text.take s ++ ((r.text.drop s).take (e - s) ++ r.text.drop e)
              = pendingText r
          rw [← List.append_assoc, ← List.take_add, Nat.add_sub_cancel' hse,
            List.take_append_drop]
          simp [pendingText, hp]
        · rw [if_neg hs] at h
          injection h with hpair
          injection hpair with hreg hr2
          subst hreg
          subst hr2
          refine ⟨?_, rfl⟩
          show r.text.take e ++ ([] ++ r.text.drop e) = pendingText r
          rw [List.nil_append, List.take_append_drop]
          simp [pendingText, hp]

/-- A scanner state with nothing left to emit has empty pending text. -/
theorem next_none_pending (r : Regions) (h : r.next = none) : pendingText r = [] := by
  unfold Regions.next at h
  cases hp : r.previous with
  | some pair =>
    obtain ⟨t0, st0⟩ := pair
    rw [hp] at h
    exact absurd h (by simp)
  | none =>
    rw [hp] at h
    dsimp only at h
    by_cases ht : r.text = []
    · simp [pendingText, hp, ht]
    · rw [if_neg ht] at h
      cases hm : MatchStyles.find_match r.styles r.text with
      | none =>
        rw [hm] at h
        dsimp only at h
        exact absurd h (by simp)
      | some cand =>
        obtain ⟨⟨s, e⟩, style⟩ := cand
        rw [hm] at h
        dsimp only at h
        by_cases hs : 0 < s
        · rw [if_pos hs] at h; exact absurd h (by simp)
        · rw [if_neg hs] at h; exact absurd h (by simp)

/-- Running the scanner preserves the pending text: the concatenation of
everything emitted so far, followed by what is still pending, is exactly
the pending text of the initial state.  The pattern set is preserved as
well. -/
theorem run_pending (fuel : Nat) (r : Regions) (hwf : StylesWF r.styles) :
    concatTexts (Regions.run fuel r).1 ++ pendingText (Regions.run fuel r).2 = pendingText r
    ∧ (Regions.run fuel r).2.styles = r.styles := by
  induction fuel generalizing r with
  | zero => exact ⟨rfl, rfl⟩
  | succ n ih =>
    cases hn : r.next with
    | none =>
      constructor
      · show concatTexts (Regions.run (n + 1) r).1
            ++ pendingText (Regions.run (n + 1) r).2 = pendingText r
        simp only [Regions.run, hn, concatTexts, List.nil_append]
      · simp only [Regions.run, hn]
    | some pair =>
      obtain ⟨reg, r2⟩ := pair
      obtain ⟨hstep, hsty⟩ := next_pending r hwf reg r2 hn
      have hwf2 : StylesWF r2.styles := hsty ▸ hwf
      obtain ⟨ihp, ihs⟩ := ih r2 hwf2
      constructor
      · show concatTexts (Regions.run (n + 1) r).1
            ++ pendingText (Regions.run (n + 1) r).2 = pendingText r
        simp only [Regions.run, hn, concatTexts]
        rw [List.append_assoc, ihp, hstep]
      · show (Regions.run (n + 1) r).2.styles = r.styles
        simp only [Regions.run, hn]
        rw [ihs, hsty]

/-- C1: losslessness of the region scanner.  For every pattern set whose
patterns report genuine spans (the regex collaborator's guarantee) and
every input line, if the scan completes within some number of steps then
concatenating the texts of all emitted regions, in emission order,
reproduces the original line exactly: no character is dropped, duplicated
or reordered. -/
theorem c1_lossless (styles : List MatchStyle) (text : List Char) (fuel : Nat)
    (hwf : StylesWF styles)
    (hdone : (Regions.run fuel (Parser.regions { styles := styles } text)).2.next = none) :
    concatTexts (Regions.run fuel (Parser.regions { styles := styles } text)).1 = text := by
  have h0 : pendingText (Parser.regions { styles := styles } text) = text := by
    simp [pendingText, Parser.regions]
  obtain ⟨hrun, _⟩ := run_pending fuel (Parser.regions { styles := styles } text) hwf
  rw [next_none_pending _ hdone, List.append_nil] at hrun
  rw [hrun, h0]

/-- Every literal pattern is well formed. -/
theorem litPat_WF (p : List Char) : (litPat p).WF := by
  have hbound : ∀ t i, findSub p t = some i → i + p.length ≤ t.length := by
    intro t
    induction t with
    | nil =>
      intro i h
      unfold findSub at h
      by_cases hp : p.isPrefixOf ([] : List Char)
      · rw [if_pos hp] at h
        have hp2 : p = [] := List.prefix_nil.mp (List.isPrefixOf_iff_prefix.mp hp)
        have hi : i = 0 := (Option.some.inj h).symm
        simp [hi, hp2]
      · rw [if_neg hp] at h
        exact absurd h (by simp)
    | cons c t ih =>
      intro i h
      unfold findSub at h
      by_cases hp : p.isPrefixOf (c :: t)
      · rw [if_pos hp] at h
        have hi : i = 0 := (Option.some.inj h).symm
        have hlen : p.length ≤ (c :: t).length :=
          (List.isPrefixOf_iff_prefix.mp hp).length_le
        simp only [hi, Nat.zero_add]
        exact hlen
      · rw [if_neg hp] at h
        obtain ⟨j, hj, hij⟩ := Option.map_eq_some'.mp h
        have := ih j hj
        simp only [← hij, List.length_cons]
        omega
  intro t s e h
  obtain ⟨i, hi, hie⟩ := Option.map_eq_some'.mp h
  have h1 : s = i := (congrArg Prod.fst hie).symm
  have h2 : e = i + p.length := (congrArg Prod.snd hie).symm
  constructor
  · rw [h1, h2]; exact Nat.le_add_right i p.length
  · rw [h2]; exact hbound t i hi

/-- The fixture pattern set is well formed. -/
theorem fooBarStyles_WF : StylesWF fooBarStyles := by
  intro ms hms
  rcases List.mem_cons.mp hms with h | h
  · rw [h]; exact litPat_WF (str "foo")
  · rw [List.mem_singleton.mp h]; exact litPat_WF (str "bar")

/-- Witness for C1: scanning foo bar with the patterns foo and bar
completes and the emitted regions concatenate back to foo bar. -/
theorem c1_witness :
    concatTexts (Regions.run 5 (Parser.regions { styles := fooBarStyles } (str "foo bar"))).1
      = str "foo bar" :=
  c1_lossless fooBarStyles (str "foo bar") 5 fooBarStyles_WF rfl

/-- Single-pattern set used by the c3 witness. -/
def barStyles : List MatchStyle :=
  [ { pattern := litPat (str "bar"), style := redStyle } ]

/-- Single-pattern set used by the c6 witness (the no_match test of
main.rs). -/
def needleStyles : List MatchStyle :=
  [ { pattern := litPat (str "needle"), style := greenStyle } ]

/-- C3: when the earliest match starts at an offset greater than zero,
the scanner emits the text strictly before the match as an Unmatched
region while buffering the matched text and its style, the following
step emits the buffered match as a Matched region, and scanning
continues from the character after the match's end offset; in
particular, scanning foo bar with the patterns foo and bar yields
exactly Matched foo, Unmatched space, Matched bar and then stops. -/
theorem c3_pending_emit (sts : List MatchStyle) (t : List Char) (s e : Nat) (st : Style)
    (h1 : t ≠ []) (h2 : MatchStyles.find_match sts t = some ((s, e), st)) (h3 : 0 < s) :
    (Regions.mk t sts none).next
        = some (Region.Unmatched (t.take s),
            Regions.mk (t.drop e) sts (some ((t.drop s).take (e - s), st)))
    ∧ (Regions.mk (t.drop e) sts (some ((t.drop s).take (e - s), st))).next
        = some (Region.Matched ((t.drop s).take (e - s)) st,
            Regions.mk (t.drop e) sts none)
    ∧ Regions.run 4 (Parser.regions { styles := fooBarStyles } (str "foo bar"))
        = ([Region.Matched (str "foo") greenStyle,
            Region.Unmatched (str " "),
            Region.Matched (str "bar") redStyle],
           Regions.mk [] fooBarStyles none)
    ∧ (Regions.mk [] fooBarStyles none).next = none := by
  refine ⟨?_, rfl, rfl, rfl⟩
  unfold Regions.next
  dsimp only
  rw [if_neg h1, h2]
  dsimp only
  rw [if_pos h3]

/-- Witness for C3 at the line a bar with the single pattern bar: the
match starts at offset 2, so an Unmatched a-space region is emitted
first and the match is buffered, then emitted. -/
theorem c3_witness :
    (Regions.mk (str "a bar") barStyles none).next
        = some (Region.Unmatched ((str "a bar").take 2),
            Regions.mk ((str "a bar").drop 5) barStyles
              (some (((str "a bar").drop 2).take (5 - 2), redStyle)))
    ∧ (Regions.mk ((str "a bar").drop 5) barStyles
          (some (((str "a bar").drop 2).take (5 - 2), redStyle))).next
        = some (Region.Matched (((str "a bar").drop 2).take (5 - 2)) redStyle,
            Regions.mk ((str "a bar").drop 5) barStyles none)
    ∧ Regions.run 4 (Parser.regions { styles := fooBarStyles } (str "foo bar"))
        = ([Region.Matched (str "foo") greenStyle,
            Region.Unmatched (str " "),
            Region.Matched (str "bar") redStyle],
           Regions.mk [] fooBarStyles none)
    ∧ (Regions.mk [] fooBarStyles none).next = none :=
  c3_pending_emit barStyles (str "a bar") 2 5 redStyle (by decide) rfl (by decide)

/-- C6: if the line is non-empty and no pattern of the set matches
anywhere in it, the scanner emits exactly one region, an Unmatched
region carrying the whole line, and the next step ends the iteration. -/
theorem c6_no_match (sts : List MatchStyle) (t : List Char) (h1 : t ≠ [])
    (h2 : MatchStyles.find_match sts t = none) :
    (Regions.mk t sts none).next
        = some (Region.Unmatched t, Regions.mk [] sts none)
    ∧ (Regions.mk [] sts none).next = none := by
  constructor
  · unfold Regions.next
    dsimp only
    rw [if_neg h1, h2]
    dsimp only
    rw [List.drop_length]
  · rfl

/-- Witness for C6: the no_match test of main.rs, pattern needle over the
line haystack. -/
theorem c6_witness :
    (Regions.mk (str "haystack") needleStyles none).next
        = some (Region.Unmatched (str "haystack"), Regions.mk [] needleStyles none)
    ∧ (Regions.mk [] needleStyles none).next = none :=
  c6_no_match needleStyles (str "haystack") (by decide) rfl

/-- The min_by fold returns the first of the minimal elements: the
candidate list splits around the result and every candidate strictly
before it has a strictly larger start offset. -/
theorem minFirst_decomp (x : Cand) (xs : List Cand) :
    ∃ l1 l2, x :: xs = l1 ++ minFirst x xs :: l2
      ∧ ∀ y ∈ l1, (minFirst x xs).1.1 < y.1.1 := by
  induction xs generalizing x with
  | nil =>
    exact ⟨[], [], rfl, fun y hy => absurd hy (List.not_mem_nil y)⟩
  | cons y ys ih =>
    have hred : minFirst x (y :: ys) = minFirst (if y.1.1 < x.1.1 then y else x) ys := rfl
    by_cases hc : y.1.1 < x.1.1
    · obtain ⟨l1, l2, hdec, hstrict⟩ := ih y
      have hkey : (minFirst y ys).1.1 < x.1.1 :=
        Nat.lt_of_le_of_lt (minFirst_le y ys y (List.mem_cons_self y ys)) hc
      refine ⟨x :: l1, l2, ?_, ?_⟩
      · rw [hred, if_pos hc]
        show x :: (y :: ys) = x :: (l1 ++ minFirst y ys :: l2)
        rw [← hdec]
      · rw [hred, if_pos hc]
        intro z hz
        rcases List.mem_cons.mp hz with h | h
        · rw [h]; exact hkey
        · exact hstrict z h
    · obtain ⟨l1, l2, hdec, hstrict⟩ := ih x
      cases l1 with
      | nil =>
        have hdec2 : x :: ys = minFirst x ys :: l2 := by simpa using hdec
        injection hdec2 with hx hl2
        refine ⟨[], y :: ys, ?_, ?_⟩
        · rw [hred, if_neg hc]
          show x :: y :: ys = minFirst x ys :: y :: ys
          rw [← hx]
        · intro z hz
          exact absurd hz (List.not_mem_nil z)
      | cons a l1t =>
        have hdec2 : x :: ys = a :: (l1t ++ minFirst x ys :: l2) := by simpa using hdec
        injection hdec2 with hxa hys
        have hax : (minFirst x ys).1.1 < x.1.1 := by
          have h3 := hstrict a (List.mem_cons_self a l1t)
          rw [← hxa] at h3
          exact h3
        have hay : (minFirst x ys).1.1 < y.1.1 :=
          Nat.lt_of_lt_of_le hax (Nat.le_of_not_lt hc)
        refine ⟨x :: y :: l1t, l2, ?_, ?_⟩
        · rw [hred, if_neg hc]
          show x :: y :: ys = x :: y :: (l1t ++ minFirst x ys :: l2)
          rw [← hys]
        · rw [hred, if_neg hc]
          intro z hz
          rcases List.mem_cons.mp hz with h | h
          · rw [h]; exact hax
          · rcases List.mem_cons.mp h with h2 | h2
            · rw [h2]; exact hay
            · exact hstrict z (List.mem_cons_of_mem a h2)

/-- Splitting a filterMap around one of its output elements locates the
input element that produced it, with everything before it mapping to the
output prefix. -/
theorem filterMap_split {α β : Type} (f : α → Option β) :
    ∀ (l : List α) (l1 : List β) (c : β) (l2 : List β),
      l.filterMap f = l1 ++ c :: l2 →
      ∃ s1 a s2, l = s1 ++ a :: s2 ∧ f a = some c ∧ s1.filterMap f = l1 := by
  intro l
  induction l with
  | nil =>
    intro l1 c l2 h
    rw [List.filterMap_nil] at h
    cases l1 with
    | nil => simp at h
    | cons d l1t => simp at h
  | cons a l ih =>
    intro l1 c l2 h
    cases hf : f a with
    | none =>
      rw [List.filterMap_cons_none hf] at h
      obtain ⟨s1, b, s2, hl, hfb, hs1⟩ := ih l1 c l2 h
      refine ⟨a :: s1, b, s2, by rw [List.cons_append, ← hl], hfb, ?_⟩
      rw [List.filterMap_cons_none hf, hs1]
    | some b0 =>
      rw [List.filterMap_cons_some hf] at h
      cases l1 with
      | nil =>
        have h2 : b0 :: List.filterMap f l = c :: l2 := by simpa using h
        injection h2 with hbc hrest
        refine ⟨[], a, l, rfl, ?_, rfl⟩
        rw [hf, hbc]
      | cons d l1t =>
        have h2 : b0 :: List.filterMap f l = d :: (l1t ++ c :: l2) := by simpa using h
        injection h2 with hbd hrest
        obtain ⟨s1, b, s2, hl, hfb, hs1⟩ := ih l1t c l2 hrest
        refine ⟨a :: s1, b, s2, by rw [List.cons_append, ← hl], hfb, ?_⟩
        rw [List.filterMap_cons_some hf, hs1, hbd]

/-- C4: find_match returns an occurrence whose start offset is smallest
over all patterns' matches; on a tie of start offsets the pattern listed
earliest in the set wins (every strictly earlier pattern either does not
match or matches strictly later); and it returns none exactly when no
pattern of the set matches anywhere in the text. -/
theorem c4_find_match (styles : List MatchStyle) (t : List Char) :
    (MatchStyles.find_match styles t = none ↔ ∀ ms ∈ styles, ms.pattern.find t = none)
    ∧ (∀ s e st, MatchStyles.find_match styles t = some ((s, e), st) →
        (∀ ms ∈ styles, ∀ s2 e2, ms.pattern.find t = some (s2, e2) → s ≤ s2)
        ∧ ∃ s1 ms s2, styles = s1 ++ ms :: s2
            ∧ ms.pattern.find t = some (s, e) ∧ st = ms.style
            ∧ ∀ ms2 ∈ s1, ∀ s2b e2, ms2.pattern.find t = some (s2b, e2) → s < s2b) := by
  constructor
  · constructor
    · intro h ms hms
      cases hfind : ms.pattern.find t with
      | none => rfl
      | some m =>
        exfalso
        have hmem : (m, ms.style) ∈ styles.filterMap
            (fun ms => (ms.pattern.find t).map (fun m => (m, ms.style))) :=
          List.mem_filterMap.mpr ⟨ms, hms, by rw [hfind]; rfl⟩
        unfold MatchStyles.find_match at h
        cases hc : styles.filterMap
            (fun ms => (ms.pattern.find t).map (fun m => (m, ms.style))) with
        | nil => rw [hc] at hmem; exact absurd hmem (List.not_mem_nil _)
        | cons x xs => rw [hc] at h; exact absurd h (by simp)
    · intro hall
      unfold MatchStyles.find_match
      cases hc : styles.filterMap
          (fun ms => (ms.pattern.find t).map (fun m => (m, ms.style))) with
      | nil => rfl
      | cons x xs =>
        exfalso
        have hx : x ∈ styles.filterMap
            (fun ms => (ms.pattern.find t).map (fun m => (m, ms.style))) := by
          rw [hc]; exact List.mem_cons_self x xs
        obtain ⟨ms, hms, hfx⟩ := List.mem_filterMap.mp hx
        obtain ⟨m, hfind, _⟩ := Option.map_eq_some'.mp hfx
        rw [hall ms hms] at hfind
        exact absurd hfind (by simp)
  · intro s e st h
    unfold MatchStyles.find_match at h
    cases hc : styles.filterMap
        (fun ms => (ms.pattern.find t).map (fun m => (m, ms.style))) with
    | nil => rw [hc] at h; exact absurd h (by simp)
    | cons x xs =>
      rw [hc] at h
      have hval : minFirst x xs = ((s, e), st) := Option.some.inj h
      constructor
      · intro ms hms s2 e2 hfind
        have hmem : ((s2, e2), ms.style) ∈ styles.filterMap
            (fun ms => (ms.pattern.find t).map (fun m => (m, ms.style))) :=
          List.mem_filterMap.mpr ⟨ms, hms, by rw [hfind]; rfl⟩
        rw [hc] at hmem
        have hle := minFirst_le x xs ((s2, e2), ms.style) hmem
        rw [hval] at hle
        exact hle
      · obtain ⟨l1, l2, hdec, hstrict⟩ := minFirst_decomp x xs
        rw [hval] at hdec hstrict
        obtain ⟨s1, ms, s2l, hsplit, hf, hs1⟩ :=
          filterMap_split (fun ms => (ms.pattern.find t).map (fun m => (m, ms.style)))
            styles l1 ((s, e), st) l2 (hc.trans hdec)
        obtain ⟨m, hfind, hmap⟩ := Option.map_eq_some'.mp hf
        have hm : m = (s, e) := congrArg Prod.fst hmap
        have hstl : ms.style = st := congrArg Prod.snd hmap
        refine ⟨s1, ms, s2l, hsplit, hm ▸ hfind, hstl.symm, ?_⟩
        intro ms2 hms2 s2b e2 hfind2
        have hmem2 : ((s2b, e2), ms2.style) ∈ s1.filterMap
            (fun ms => (ms.pattern.find t).map (fun m => (m, ms.style))) :=
          List.mem_filterMap.mpr ⟨ms2, hms2, by rw [hfind2]; rfl⟩
        rw [hs1] at hmem2
        exact hstrict ((s2b, e2), ms2.style) hmem2

/-- Witness for C4 at the leftmost-wins example of the spec: on the line
xx bar foo the set listing foo before bar returns the bar occurrence at
offset 3, produced by the second listed match style, and every earlier
listed pattern matches strictly later. -/
theorem c4_witness :
    ∃ s1 ms s2, fooBarStyles = s1 ++ ms :: s2
      ∧ ms.pattern.find (str "xx bar foo") = some (3, 6) ∧ redStyle = ms.style
      ∧ ∀ ms2 ∈ s1, ∀ s2b e2, ms2.pattern.find (str "xx bar foo") = some (s2b, e2) → 3 < s2b :=
  ((c4_find_match fooBarStyles (str "xx bar foo")).2 3 6 redStyle rfl).2

/-- str::split on a separator character: splitting the empty text yields
one empty piece, and every separator occurrence opens a new piece. -/
def splitOn (sep : Char) : List Char → List (List Char)
  | [] => [[]]
  | c :: rest =>
    if c = sep then [] :: splitOn sep rest
    else
      match splitOn sep rest with
      | [] => [[c]]
      | l :: ls => (c :: l) :: ls

/-- Leading whitespace removed (the regex class backslash-s and the
leading half of str::trim). -/
def dropWs (l : List Char) : List Char := l.dropWhile Char.isWhitespace

/-- str::trim: whitespace removed from both ends. -/
def trim (l : List Char) : List Char := (dropWs (dropWs l).reverse).reverse

/-- The token dispatch of the descriptor parser (TryFrom<Description>
for Style in main.rs): each recognized token maps to the owo_colors
style transformer the match arm applies; an unrecognized token maps to
none (the arm that returns the unknown-style-part error). -/
def tokenAction (tok : List Char) : Option (Style → Style) :=
  if tok = str "black" then some (fun s => { s with fg := some .black })
  else if tok = str "b:black" then some (fun s => { s with bg := some .black })
  else if tok = str "blue" then some (fun s => { s with fg := some .blue })
  else if tok = str "b:blue" then some (fun s => { s with bg := some .blue })
  else if tok = str "cyan" then some (fun s => { s with fg := some .cyan })
  else if tok = str "b:cyan" then some (fun s => { s with bg := some .cyan })
  else if tok = str "green" then some (fun s => { s with fg := some .green })
  else if tok = str "b:green" then some (fun s => { s with bg := some .green })
  else if tok = str "magenta" then some (fun s => { s with fg := some .magenta })
  else if tok = str "b:magenta" then some (fun s => { s with bg := some .magenta })
  else if tok = str "purple" then some (fun s => { s with fg := some .purple })
  else if tok = str "b:purple" then some (fun s => { s with bg := some .purple })
  else if tok = str "red" then some (fun s => { s with fg := some .red })
  else if tok = str "b:red" then some (fun s => { s with bg := some .red })
  else if tok = str "white" then some (fun s => { s with fg := some .white })
  else if tok = str "b:white" then some (fun s => { s with bg := some .white })
  else if tok = str "yellow" then some (fun s => { s with fg := some .yellow })
  else if tok = str "b:yellow" then some (fun s => { s with bg := some .yellow })
  else if tok = str "bold" then some (fun s => { s with bold := true })
  else if tok = str "italic" then some (fun s => { s with italic := true })
  else if tok = str "strike" then some (fun s => { s with strikethrough := true })
  else if tok = str "underline" then some (fun s => { s with underline := true })
  else none

/-- The fold of the descriptor parser over the comma-separated parts:
each part is trimmed and dispatched; the first unrecognized part aborts
with that part as the error (main.rs formats it into the
unknown-style-part message; the error payload here is the offending
part itself, its ANSI decoration being rendering). -/
def Style.tryFromGo : Style → List (List Char) → Except (List Char) Style
  | st, [] => .ok st
  | st, p :: ps =>
    match tokenAction (trim p) with
    | some f => Style.tryFromGo (f st) ps
    | none => .error p

/-- TryFrom<Description> for Style of main.rs: fold the comma-separated
description into a style starting from Style::new(). -/
def Style.tryFrom (desc : List Char) : Except (List Char) Style :=
  Style.tryFromGo Style.new (splitOn ',' desc)

/-- An error of the descriptor fold is one of the parts and its trimmed
form is unrecognized. -/
theorem tryFromGo_error (parts : List (List Char)) :
    ∀ (st : Style) (bad : List Char), Style.tryFromGo st parts = .error bad →
      bad ∈ parts ∧ tokenAction (trim bad) = none := by
  induction parts with
  | nil =>
    intro st bad h
    exact absurd h (by simp [Style.tryFromGo])
  | cons p ps ih =>
    intro st bad h
    unfold Style.tryFromGo at h
    cases ha : tokenAction (trim p) with
    | some f =>
      rw [ha] at h
      dsimp only at h
      obtain ⟨hmem, hnone⟩ := ih (f st) bad h
      exact ⟨List.mem_cons_of_mem p hmem, hnone⟩
    | none =>
      rw [ha] at h
      dsimp only at h
      injection h with hbad
      rw [← hbad]
      exact ⟨List.mem_cons_self p ps, hbad ▸ ha⟩

/-- If some part is unrecognized, the descriptor fold errors. -/
theorem tryFromGo_has_error (parts : List (List Char)) :
    ∀ (st : Style), (∃ p ∈ parts, tokenAction (trim p) = none) →
      ∃ bad, Style.tryFromGo st parts = .error bad := by
  induction parts with
  | nil =>
    intro st h
    obtain ⟨p, hp, _⟩ := h
    exact absurd hp (List.not_mem_nil p)
  | cons p ps ih =>
    intro st h
    unfold Style.tryFromGo
    cases ha : tokenAction (trim p) with
    | some f =>
      obtain ⟨q, hq, hnone⟩ := h
      rcases List.mem_cons.mp hq with heq | hmem
      · rw [heq] at hnone
        rw [hnone] at ha
        exact absurd ha (by simp)
      · exact ih (f st) ⟨q, hmem, hnone⟩
    | none => exact ⟨p, rfl⟩

/-- If every part is recognized, the descriptor fold succeeds. -/
theorem tryFromGo_ok (parts : List (List Char)) :
    ∀ (st : Style), (∀ p ∈ parts, (tokenAction (trim p)).isSome = true) →
      ∃ out, Style.tryFromGo st parts = .ok out := by
  induction parts with
  | nil => exact fun st _ => ⟨st, rfl⟩
  | cons p ps ih =>
    intro st h
    unfold Style.tryFromGo
    cases ha : tokenAction (trim p) with
    | some f => exact ih (f st) (fun q hq => h q (List.mem_cons_of_mem p hq))
    | none =>
      have := h p (List.mem_cons_self p ps)
      rw [ha] at this
      exact absurd this (by simp)

/-- C8: the descriptor parser aborts on the first unrecognized token and
returns no style at all.  Any returned error names an offending
comma-separated part (one whose trimmed form is recognized by no match
arm); an unrecognized part guarantees an error is returned; and if every
part is recognized a style is returned. -/
theorem c8_descriptor_errors (desc : List Char) :
    (∀ bad, Style.tryFrom desc = .error bad →
        bad ∈ splitOn ',' desc ∧ tokenAction (trim bad) = none)
    ∧ ((∃ p ∈ splitOn ',' desc, tokenAction (trim p) = none) →
        ∃ bad, Style.tryFrom desc = .error bad)
    ∧ ((∀ p ∈ splitOn ',' desc, (tokenAction (trim p)).isSome = true) →
        ∃ st, Style.tryFrom desc = .ok st) := by
  refine ⟨?_, ?_, ?_⟩
  · intro bad h
    exact tryFromGo_error (splitOn ',' desc) Style.new bad h
  · intro h
    exact tryFromGo_has_error (splitOn ',' desc) Style.new h
  · intro h
    exact tryFromGo_ok (splitOn ',' desc) Style.new h

/-- Witness for C8: red,bold parses to a style, while red,blurk errors
(blurk is the offending token and no style is produced). -/
theorem c8_witness :
    (∃ st, Style.tryFrom (str "red,bold") = .ok st)
    ∧ (∃ bad, Style.tryFrom (str "red,blurk") = .error bad) :=
  ⟨(c8_descriptor_errors (str "red,bold")).2.2 (by decide),
   (c8_descriptor_errors (str "red,blurk")).2.1 ⟨str "blurk", by decide, rfl⟩⟩

/-- A regex word character (the class backslash-w restricted to its
ASCII inhabitants, which is what section names use). -/
def isWordChar (c : Char) : Bool := c.isAlphanum || c = '_'

/-- The section header line pattern of config.rs: optional whitespace, an
opening bracket, one or more word characters (the captured name), a
closing bracket, optional whitespace, end of line. -/
def parseSection (line : List Char) : Option (List Char) :=
  match dropWs line with
  | [] => none
  | c :: rest =>
    if c = '[' then
      match rest.dropWhile isWordChar with
      | d :: rest2 =>
        if rest.takeWhile isWordChar = [] then none
        else if d = ']' ∧ dropWs rest2 = [] then some (rest.takeWhile isWordChar)
        else none
      | [] => none
    else none

/-- The match style line pattern of config.rs: optional whitespace, a
double quote, a greedily captured pattern up to the last double quote of
the line, optional whitespace, and the style description making up the
rest of the line. -/
def parseMatchStyle (line : List Char) : Option (List Char × List Char) :=
  match dropWs line with
  | [] => none
  | c :: rest =>
    if c = quoteChar then
      match rest.reverse.dropWhile (fun a => a != quoteChar) with
      | [] => none
      | _ :: revPat =>
        some (revPat.reverse, dropWs (rest.reverse.takeWhile (fun a => a != quoteChar)).reverse)
    else none

/-- Trailing carriage return removed, as str::lines does for lines that
ended in a carriage-return-line-feed pair. -/
def stripCr (l : List Char) : List Char :=
  match l.reverse with
  | c :: rest => if c = '\r' then rest.reverse else l
  | [] => l

/-- str::lines of the configuration text: split on line feeds, drop a
final empty piece produced by a trailing line feed, and strip the
carriage return from every piece that was terminated by a line feed. -/
def rustLines (s : List Char) : List (List Char) :=
  match (splitOn '\n' s).reverse with
  | [] => []
  | last :: revInit =>
    if last = [] then revInit.reverse.map stripCr
    else revInit.reverse.map stripCr ++ [last]

/-- The loop of find_style in config.rs over the configuration lines.
The append flag records whether the requested section is open; while it
is set, a line matching the match-style pattern contributes one
MatchStyle (pattern compiled first, then the description parsed) and is
not reconsidered as a header; any other line updates the flag when it is
a section header. -/
def findStyleGo (compile : List Char → Except (List Char) Pattern) (style : List Char) :
    Bool → List (List Char) → Except (List Char) (List MatchStyle)
  | _, [] => .ok []
  | append, line :: rest =>
    match (if append then parseMatchStyle line else none) with
    | some entry => do
      let pattern ← compile entry.1
      let st ← Style.tryFrom entry.2
      let tail ← findStyleGo compile style append rest
      .ok ({ pattern := pattern, style := st } :: tail)
    | none =>
      match parseSection line with
      | some name => findStyleGo compile style (name == style) rest
      | none => findStyleGo compile style append rest

/-- find_style of config.rs: scan the configuration text line by line,
starting outside any section.  Regex compilation is the injected
collaborator compile. -/
def find_style (compile : List Char → Except (List Char) Pattern)
    (config : List Char) (style : List Char) : Except (List Char) (List MatchStyle) :=
  findStyleGo compile style false (rustLines config)

/-- Specification-side description of section lookup: the
pattern-description line pairs appearing under the requested section
header, in their file line order.  A header line opens the requested
section exactly when its name equals the requested one and closes it
otherwise. -/
def specSectionEntries (style : List Char) :
    Bool → List (List Char) → List (List Char × List Char)
  | _, [] => []
  | append, line :: rest =>
    match (if append then parseMatchStyle line else none) with
    | some entry => entry :: specSectionEntries style append rest
    | none =>
      match parseSection line with
      | some name => specSectionEntries style (name == style) rest
      | none => specSectionEntries style append rest

/-- Parse a list of extracted (pattern, description) pairs in order:
compile the pattern, then parse the description, failing on the first
error. -/
def parseEntries (compile : List Char → Except (List Char) Pattern) :
    List (List Char × List Char) → Except (List Char) (List MatchStyle)
  | [] => .ok []
  | entry :: rest => do
    let pattern ← compile entry.1
    let st ← Style.tryFrom entry.2
    let tail ← parseEntries compile rest
    .ok ({ pattern := pattern, style := st } :: tail)

/-- The find_style loop computes exactly the parse of the entries under
the requested section, in file order. -/
theorem findStyleGo_eq (compile : List Char → Except (List Char) Pattern)
    (style : List Char) (ls : List (List Char)) :
    ∀ append, findStyleGo compile style append ls
      = parseEntries compile (specSectionEntries style append ls) := by
  induction ls with
  | nil => intro append; rfl
  | cons line rest ih =>
    intro append
    unfold findStyleGo specSectionEntries
    cases hif : (if append then parseMatchStyle line else none) with
    | some entry =>
      unfold parseEntries
      rw [ih append]
    | none =>
      cases hsec : parseSection line with
      | some name => exact ih (name == style)
      | none => exact ih append

/-- Reduction of the entry collection over one line while outside the
requested section. -/
theorem specSectionEntries_false_cons (style line : List Char) (rest : List (List Char)) :
    specSectionEntries style false (line :: rest)
      = match parseSection line with
        | some name => specSectionEntries style (name == style) rest
        | none => specSectionEntries style false rest := rfl

/-- A header line for another section keeps the collection closed. -/
theorem specSectionEntries_false_sec (style line : List Char) (rest : List (List Char))
    (name : List Char) (h : parseSection line = some name) :
    specSectionEntries style false (line :: rest)
      = specSectionEntries style (name == style) rest := by
  rw [specSectionEntries_false_cons, h]

/-- A non-header line outside the requested section is skipped. -/
theorem specSectionEntries_false_nosec (style line : List Char) (rest : List (List Char))
    (h : parseSection line = none) :
    specSectionEntries style false (line :: rest)
      = specSectionEntries style false rest := by
  rw [specSectionEntries_false_cons, h]

/-- When no line of the file is a header for the requested section, no
entry is ever collected. -/
theorem specSectionEntries_absent (style : List Char) (ls : List (List Char)) :
    (∀ line ∈ ls, parseSection line ≠ some style) →
      specSectionEntries style false ls = [] := by
  induction ls with
  | nil => intro h; rfl
  | cons line rest ih =>
    intro h
    have hline : parseSection line ≠ some style := h line (List.mem_cons_self line rest)
    have hrest : ∀ l ∈ rest, parseSection l ≠ some style :=
      fun l hl => h l (List.mem_cons_of_mem line hl)
    cases hsec : parseSection line with
    | some name =>
      have hne : name ≠ style := by
        intro he
        rw [he] at hsec
        exact hline hsec
      rw [specSectionEntries_false_sec style line rest name hsec,
        beq_eq_false_iff_ne.mpr hne]
      exact ih hrest
    | none =>
      rw [specSectionEntries_false_nosec style line rest hsec]
      exact ih hrest

/-- C9: the configuration loader returns exactly the match styles whose
lines appear under the requested section header, in their file line
order (the parse of the section's entries), and requesting a section
name that appears in no header of the file succeeds with the empty
pattern set. -/
theorem c9_section_isolation (compile : List Char → Except (List Char) Pattern)
    (config style : List Char) :
    find_style compile config style
      = parseEntries compile (specSectionEntries style false (rustLines config))
    ∧ ((∀ line ∈ rustLines config, parseSection line ≠ some style) →
        find_style compile config style = .ok []) := by
  constructor
  · exact findStyleGo_eq compile style (rustLines config) false
  · intro h
    rw [find_style, findStyleGo_eq compile style (rustLines config) false,
      specSectionEntries_absent style (rustLines config) h]
    rfl

/-- Compilation collaborator interpreting every pattern source as the
literal it spells, used to instantiate the loader theorems. -/
def litCompile (p : List Char) : Except (List Char) Pattern := .ok (litPat p)

/-- The configuration fixture of the config.rs tests: sections foo and
qux. -/
def cfgFixture : List Char :=
  str "[foo]\n\"hello\" green,bold\n\n[qux]\n\"world\" yellow,underline\n\"foo\" red\n"

/-- Witness for C9: loading the absent section bar from the two-section
fixture succeeds with the empty pattern set. -/
theorem c9_witness : find_style litCompile cfgFixture (str "bar") = .ok [] :=
  (c9_section_isolation litCompile cfgFixture (str "bar")).2 (by decide)

/-- Configuration whose single match-style line has an empty
description. -/
def cfgEmptyDesc : List Char := str "[foo]\n\"x\""

/-- C10: the empty style description fails with an unknown-token error
whose offending token is the empty token (no default empty style is
produced), and consequently a configuration line whose description part
is empty aborts loading with that error. -/
theorem c10_empty_description (compile : List Char → Except (List Char) Pattern)
    (p : Pattern) (h : compile (str "x") = .ok p) :
    Style.tryFrom [] = .error []
    ∧ find_style compile cfgEmptyDesc (str "foo") = .error [] := by
  constructor
  · rfl
  · have key : find_style compile cfgEmptyDesc (str "foo")
        = Except.bind (compile (str "x")) (fun pattern => .error []) := rfl
    rw [key, h]
    rfl

/-- Witness for C10 with the literal compilation collaborator. -/
theorem c10_witness :
    Style.tryFrom [] = .error []
    ∧ find_style litCompile cfgEmptyDesc (str "foo") = .error [] :=
  c10_empty_description litCompile (litPat (str "x")) rfl

/-- read_style_from_config of config.rs, with the environment variables
and file system abstracted to the optional configuration file content:
none models a missing XDG_CONFIG_HOME and HOME pair or an absent file,
both of which return the empty set without error; some holds the file
text handed to find_style. -/
def read_style_from_config (compile : List Char → Except (List Char) Pattern)
    (configFile : Option (List Char)) (style : List Char) :
    Except (List Char) (List MatchStyle) :=
  match configFile with
  | none => .ok []
  | some config => find_style compile config style

/-- Opts of main.rs: whether help was requested and the loaded match
styles. -/
structure Opts where
  help : Bool := false
  styles : List MatchStyle := []

/-- The argument loop of Opts::parse in main.rs: a help flag sets help; a
style flag consumes the following name and appends the styles the
configuration loader returns for it (failing when no name follows); a
match flag consumes a pattern and a description, compiles and parses
them, and appends the resulting single match style (failing when either
is missing). -/
def Opts.parseGo (compile : List Char → Except (List Char) Pattern)
    (cfg : Option (List Char)) : List (List Char) → Opts → Except (List Char) Opts
  | [], opts => .ok opts
  | arg :: rest, opts =>
    let opts2 := if arg = str "--help" ∨ arg = str "-h" then { opts with help := true } else opts
    if arg = str "--style" ∨ arg = str "-s" then
      match rest with
      | [] => .error (str "expected style after --style/-s")
      | name :: rest2 => do
        let sts ← read_style_from_config compile cfg name
        Opts.parseGo compile cfg rest2 { opts2 with styles := opts2.styles ++ sts }
    else if arg = str "--match" ∨ arg = str "-m" then
      match rest with
      | p :: d :: rest2 => do
        let pattern ← compile p
        let style ← Style.tryFrom d
        Opts.parseGo compile cfg rest2
          { opts2 with styles := opts2.styles ++ [{ pattern := pattern, style := style }] }
      | _ => .error (str "expected pattern and style after --match/-m")
    else Opts.parseGo compile cfg rest opts2

/-- Opts::parse of main.rs over the given argument list, starting from
the default options. -/
def Opts.parse (compile : List Char → Except (List Char) Pattern)
    (cfg : Option (List Char)) (args : List (List Char)) : Except (List Char) Opts :=
  Opts.parseGo compile cfg args {}

/-- Pattern of the styles.rs presets, all of the form caret prefix
dot-star dollar: it matches the whole line exactly when the line starts
with the given prefix and contains no line feed (the dot of the regex
crate does not cross one and the anchors are ends of the haystack). -/
def anchoredAll (p : List Char) : Pattern :=
  fun text => if p.isPrefixOf text ∧ '\n' ∉ text then some (0, text.length) else none

/-- The diff preset of styles.rs: plus-prefixed lines green,
minus-prefixed lines red, atat-prefixed lines yellow.  The field is
named pattern as in main.rs (styles.rs itself writes expr and is not
declared as a module by main.rs, whose only module declaration is mod
config). -/
def diff : List MatchStyle :=
  [ { pattern := anchoredAll (str "+"), style := { fg := some .green } },
    { pattern := anchoredAll (str "-"), style := { fg := some .red } },
    { pattern := anchoredAll (str "@@"), style := { fg := some .yellow } } ]

/-- Configuration fixture defining one pattern under a diff section. -/
def cfgDiffSection : List Char := str "[diff]\n\"x\" red\n"

/-- C5 counterexample: invoking the driver with style diff does not
select the built-in three-pattern preset.  With no configuration file
the selected pattern set is empty, with a configuration file whose diff
section holds one pattern the selected set has exactly that one entry,
while the styles.rs preset has three. -/
theorem c5_counterexample :
    (Opts.parse litCompile none [str "--style", str "diff"]).map
        (fun o => o.styles.length) = .ok 0
    ∧ (Opts.parse litCompile (some cfgDiffSection) [str "--style", str "diff"]).map
        (fun o => o.styles.length) = .ok 1
    ∧ diff.length = 3 :=
  ⟨rfl, rfl, rfl⟩

/-- C5 amended: a style flag followed by any name, diff included, is
resolved through the configuration loader; the selected pattern set is
exactly what read_style_from_config returns for that name, and help
stays unset. -/
theorem c5_amended (compile : List Char → Except (List Char) Pattern)
    (cfg : Option (List Char)) (name : List Char) :
    Opts.parse compile cfg [str "--style", name]
        = (read_style_from_config compile cfg name).map
            (fun sts => { help := false, styles := sts })
    ∧ Opts.parse compile cfg [str "-s", name]
        = (read_style_from_config compile cfg name).map
            (fun sts => { help := false, styles := sts }) := by
  constructor
  · have key : Opts.parse compile cfg [str "--style", name]
        = Except.bind (read_style_from_config compile cfg name)
            (fun sts => .ok { help := false, styles := sts }) := rfl
    rw [key]
    cases read_style_from_config compile cfg name with
    | ok sts => rfl
    | error e => rfl
  · have key : Opts.parse compile cfg [str "-s", name]
        = Except.bind (read_style_from_config compile cfg name)
            (fun sts => .ok { help := false, styles := sts }) := rfl
    rw [key]
    cases read_style_from_config compile cfg name with
    | ok sts => rfl
    | error e => rfl

end Chromazone
